import Mathlib

/-!
Verification of the `AesCtrP` counter-mode wrapper (`src/aes-ctrp.js`).

The wrapper is shallowly embedded over `List Nat`: a JS `Uint8Array` is a list
of naturals below 256 (stores truncate with `% 256`), JS `>>>` is modelled by
`Nat.shiftRight` after reducing the operand modulo 2^32 and the shift count
modulo 32, and JS `x << 1` on a signed 32-bit value is modelled by doubling
modulo 2^32 with the sign test `2^31 ≤ z`.  Functions that can throw or loop
forever return a `JsResult`.
-/

namespace AesCtrP

/-- Truncation performed by a store into a `Uint8Array` (and by `& 0xff`). -/
def byte (x : Nat) : Nat := x % 256

/-- JS `ToUint32`: the conversion applied to the left operand of `>>>`. -/
def u32 (x : Nat) : Nat := x % 4294967296

/-- JS `x << 1` on a 32-bit value, viewed as an unsigned residue mod 2^32. -/
def shl32 (z : Nat) : Nat := z * 2 % 4294967296

/-- The `while (1) { if (x < 0) break; n++; x = x << 1; }` loop of
`AesCtrP.leadingZeros`, fuel-indexed.  `z` is the current value of `x` as an
unsigned 32-bit residue; the JS test `x < 0` on the signed view is
`2147483648 ≤ z`.  On `break` the function returns `n + 32`.  `none` means the
fuel ran out; `lzLoop_zero` and `lzLoop_pos` below show that with the fuel
used by `leadingZeros` this happens exactly when the JS loop never
terminates. -/
def lzLoop : Nat → Nat → Nat → Option Nat
  | 0, _, _ => none
  | fuel + 1, n, z => if 2147483648 ≤ z then some (n + 32) else lzLoop fuel (n + 1) (shl32 z)

/-- `AesCtrP.leadingZeros(x)` for a non-negative `x`.  `x == 0` returns 64
immediately.  Otherwise the first loop iteration cannot break (the unconverted
`x` is non-negative), so it increments `n` to 1 and replaces `x` by the 32-bit
value `x << 1`, after which the loop runs on 32-bit values.  The fuel 64 is
provably enough for every input on which the JS loop terminates. -/
def leadingZeros (x : Nat) : Option Nat :=
  if x = 0 then some 64 else lzLoop 64 1 (x * 2 % 4294967296)

/-- The line `sequence=(sequence==null)?8:(64 - AesCtrP.leadingZeros(sequence));`
shared by `encrypt` and `decrypt`: the optional `sequence` argument is replaced
by a shift amount.  `none` propagates non-termination of `leadingZeros`. -/
def shiftOf : Option Nat → Option Nat
  | none => some 8
  | some s => (leadingZeros s).map fun lz => 64 - lz

end AesCtrP

namespace Aes

/-- Modelled from the spec: the block-cipher collaborator is not part of the
repository sources; §1 and §6 of the spec declare it an external "standard
128/192/256-bit block cipher primitive assumed correct" with interface
`keyExpansion(key) -> KeySchedule` and `cipher(block, schedule) -> bytes[16]`.
It is modelled here as standard AES (FIPS-197); this is the S-box table. -/
def sBox : List Nat :=
  [0x63, 0x7c, 0x77, 0x7b, 0xf2, 0x6b, 0x6f, 0xc5, 0x30, 0x01, 0x67, 0x2b, 0xfe, 0xd7, 0xab, 0x76,
  0xca, 0x82, 0xc9, 0x7d, 0xfa, 0x59, 0x47, 0xf0, 0xad, 0xd4, 0xa2, 0xaf, 0x9c, 0xa4, 0x72, 0xc0,
  0xb7, 0xfd, 0x93, 0x26, 0x36, 0x3f, 0xf7, 0xcc, 0x34, 0xa5, 0xe5, 0xf1, 0x71, 0xd8, 0x31, 0x15,
  0x04, 0xc7, 0x23, 0xc3, 0x18, 0x96, 0x05, 0x9a, 0x07, 0x12, 0x80, 0xe2, 0xeb, 0x27, 0xb2, 0x75,
  0x09, 0x83, 0x2c, 0x1a, 0x1b, 0x6e, 0x5a, 0xa0, 0x52, 0x3b, 0xd6, 0xb3, 0x29, 0xe3, 0x2f, 0x84,
  0x53, 0xd1, 0x00, 0xed, 0x20, 0xfc, 0xb1, 0x5b, 0x6a, 0xcb, 0xbe, 0x39, 0x4a, 0x4c, 0x58, 0xcf,
  0xd0, 0xef, 0xaa, 0xfb, 0x43, 0x4d, 0x33, 0x85, 0x45, 0xf9, 0x02, 0x7f, 0x50, 0x3c, 0x9f, 0xa8,
  0x51, 0xa3, 0x40, 0x8f, 0x92, 0x9d, 0x38, 0xf5, 0xbc, 0xb6, 0xda, 0x21, 0x10, 0xff, 0xf3, 0xd2,
  0xcd, 0x0c, 0x13, 0xec, 0x5f, 0x97, 0x44, 0x17, 0xc4, 0xa7, 0x7e, 0x3d, 0x64, 0x5d, 0x19, 0x73,
  0x60, 0x81, 0x4f, 0xdc, 0x22, 0x2a, 0x90, 0x88, 0x46, 0xee, 0xb8, 0x14, 0xde, 0x5e, 0x0b, 0xdb,
  0xe0, 0x32, 0x3a, 0x0a, 0x49, 0x06, 0x24, 0x5c, 0xc2, 0xd3, 0xac, 0x62, 0x91, 0x95, 0xe4, 0x79,
  0xe7, 0xc8, 0x37, 0x6d, 0x8d, 0xd5, 0x4e, 0xa9, 0x6c, 0x56, 0xf4, 0xea, 0x65, 0x7a, 0xae, 0x08,
  0xba, 0x78, 0x25, 0x2e, 0x1c, 0xa6, 0xb4, 0xc6, 0xe8, 0xdd, 0x74, 0x1f, 0x4b, 0xbd, 0x8b, 0x8a,
  0x70, 0x3e, 0xb5, 0x66, 0x48, 0x03, 0xf6, 0x0e, 0x61, 0x35, 0x57, 0xb9, 0x86, 0xc1, 0x1d, 0x9e,
  0xe1, 0xf8, 0x98, 0x11, 0x69, 0xd9, 0x8e, 0x94, 0x9b, 0x1e, 0x87, 0xe9, 0xce, 0x55, 0x28, 0xdf,
  0x8c, 0xa1, 0x89, 0x0d, 0xbf, 0xe6, 0x42, 0x68, 0x41, 0x99, 0x2d, 0x0f, 0xb0, 0x54, 0xbb, 0x16]

/-- Modelled from the spec: FIPS-197 round constants (first byte of `rCon[i]`). -/
def rconByte (i : Nat) : Nat :=
  [0x00, 0x01, 0x02, 0x04, 0x08, 0x10, 0x20, 0x40, 0x80, 0x1b, 0x36].getD i 0

/-- Modelled from the spec: S-box substitution on a 4-byte word. -/
def subWord (w : List Nat) : List Nat := w.map fun b => sBox.getD b 0

/-- Modelled from the spec: one-byte left rotation of a 4-byte word. -/
def rotWord : List Nat → List Nat
  | [] => []
  | a :: rest => rest ++ [a]

/-- Modelled from the spec: `keyExpansion(key) -> KeySchedule` (FIPS-197 §5.2),
for key lengths 16/24/32; the schedule is a list of 4·(Nr+1) 4-byte words. -/
def keyExpansion (key : List Nat) : List (List Nat) :=
  let nk := key.length / 4
  let nr := nk + 6
  let init := (List.range nk).map fun i =>
    [key.getD (4 * i) 0, key.getD (4 * i + 1) 0, key.getD (4 * i + 2) 0, key.getD (4 * i + 3) 0]
  (List.range (4 * (nr + 1) - nk)).foldl
    (fun w _ =>
      let i := w.length
      let temp := w.getD (i - 1) []
      let temp :=
        if i % nk = 0 then
          match subWord (rotWord temp) with
          | [] => []
          | t0 :: ts => (t0 ^^^ rconByte (i / nk)) :: ts
        else if 6 < nk ∧ i % nk = 4 then subWord temp
        else temp
      w ++ [List.zipWith (fun a b => a ^^^ b) (w.getD (i - nk) []) temp])
    init

/-- Modelled from the spec: GF(2^8) doubling (`xtime`). -/
def xtime (b : Nat) : Nat := if b < 128 then b * 2 else b * 2 % 256 ^^^ 27

/-- Modelled from the spec: GF(2^8) multiplication by 3. -/
def mul3 (b : Nat) : Nat := xtime b ^^^ b

/-- Modelled from the spec: MixColumns on one 4-byte column. -/
def mixCol : List Nat → List Nat
  | [a0, a1, a2, a3] =>
    [xtime a0 ^^^ mul3 a1 ^^^ a2 ^^^ a3,
     a0 ^^^ xtime a1 ^^^ mul3 a2 ^^^ a3,
     a0 ^^^ a1 ^^^ xtime a2 ^^^ mul3 a3,
     mul3 a0 ^^^ a1 ^^^ a2 ^^^ xtime a3]
  | l => l

/-- Modelled from the spec: SubBytes on the flat 16-byte state
(state is kept in input order: position `4*c + r` is row `r`, column `c`). -/
def subBytes (s : List Nat) : List Nat := s.map fun b => sBox.getD b 0

/-- Modelled from the spec: ShiftRows on the flat 16-byte state. -/
def shiftRows (s : List Nat) : List Nat :=
  (List.range 16).map fun i => s.getD (i % 4 + 4 * ((i / 4 + i % 4) % 4)) 0

/-- Modelled from the spec: MixColumns on the flat 16-byte state. -/
def mixColumns (s : List Nat) : List Nat :=
  (List.range 16).map fun i =>
    (mixCol [s.getD (4 * (i / 4)) 0, s.getD (4 * (i / 4) + 1) 0,
             s.getD (4 * (i / 4) + 2) 0, s.getD (4 * (i / 4) + 3) 0]).getD (i % 4) 0

/-- Modelled from the spec: AddRoundKey; word `w[round*4 + c]` is XORed into
column `c` (byte `r` of the word into row `r`). -/
def addRoundKey (s : List Nat) (w : List (List Nat)) (rnd : Nat) : List Nat :=
  (List.range 16).map fun i => s.getD i 0 ^^^ (w.getD (rnd * 4 + i / 4) []).getD (i % 4) 0

/-- Modelled from the spec: `cipher(block, schedule) -> bytes[16]`
(FIPS-197 §5.1, single-block forward encryption).  Only the first 16 bytes of
`input` are read — the wrapper relies on this when it passes a 24- or 32-byte
`pwBytes` buffer as the block.  The round count is `schedule.length/4 - 1`. -/
def cipher (input : List Nat) (w : List (List Nat)) : List Nat :=
  let nr := w.length / 4 - 1
  let state := addRoundKey ((List.range 16).map fun i => input.getD i 0) w 0
  let state := (List.range (nr - 1)).foldl
    (fun st r => addRoundKey (mixColumns (shiftRows (subBytes st))) w (r + 1)) state
  addRoundKey (shiftRows (subBytes state)) w nr

end Aes

namespace AesCtrP

/-- Result of a call into the JS wrapper.  `ok` is a returned byte sequence
(the empty string returned on an invalid key size is `ok []`); `err` is a
thrown `RangeError` (negative `Uint8Array` length); `hang` means the call never
returns (the `leadingZeros` loop does not terminate). -/
inductive JsResult where
  | ok : List Nat → JsResult
  | err : JsResult
  | hang : JsResult
deriving DecidableEq

/-- The password-cycling loop
`for (j=0, i=0; i<nBytes; j=j<pl?j+1:0, i++) pwBytes[i] = password[j];`:
`j` cycles through `0..password.length-1`, i.e. `j = i % password.length`;
reading `password[0]` from an empty array gives `undefined`, stored as 0. -/
def pwBytes (password : List Nat) (nBytes : Nat) : List Nat :=
  (List.range nBytes).map fun i =>
    match password with
    | [] => 0
    | _ => password.getD (i % password.length) 0

/-- `key = Aes.cipher(pwBytes, Aes.keyExpansion(pwBytes));
key = AesCtrP.concat(key, key.slice(0, nBytes-16));` — these lines appear
verbatim in both `encrypt` and `decrypt`. -/
def deriveKey (password : List Nat) (nBytes : Nat) : List Nat :=
  let pw := pwBytes password nBytes
  let key := Aes.cipher pw (Aes.keyExpansion pw)
  key ++ key.take (nBytes - 16)

/-- The counter-block initialisation of `encrypt`.  The source computes
`nonceMs = nonce % 1000`, `nonceSec = Math.floor(nonce/1000)`,
`nonceRnd = Math.floor(Math.random()*0xffff)` (with a `Date.now()` fallback
when `nonce` is absent) and then executes
`nonce = nonceMs = nonceSec = nonceRnd = 0;`, so the packing loops below only
ever see the zeroed values; the `nonce` argument, the timestamp fallback and
the random word are all discarded. -/
def initCounterBlock (nonce : Option Nat) : List Nat :=
  let counterBlock := List.replicate 16 0
  let nonceMs := 0
  let nonceSec := 0
  let nonceRnd := 0
  let counterBlock :=
    (List.range 2).foldl (fun cb i => cb.set i (byte (nonceMs >>> (i * 8)))) counterBlock
  let counterBlock :=
    (List.range 2).foldl (fun cb i => cb.set (i + 2) (byte (nonceRnd >>> (i * 8)))) counterBlock
  (List.range 4).foldl (fun cb i => cb.set (i + 4) (byte (nonceSec >>> (i * 8)))) counterBlock

/-- The two per-block counter-setting loops, shared verbatim by `encrypt` and
`decrypt` (the second loop of `encrypt` omits `& 0xff` but stores into a
`Uint8Array`, which truncates identically):
`for (c=0; c<4; c++) counterBlock[15-c] = (b >>> c*8) & 0xff;`
`for (c=0; c<4; c++) counterBlock[15-c-4] = ((b>>>sequence) >>> c*8) & 0xff;`
`b >>> k` converts `b` to uint32 and shifts by `k % 32`; here `sequence` holds
the shift amount computed by `shiftOf`. -/
def setCtr (counterBlock : List Nat) (b sequence : Nat) : List Nat :=
  let counterBlock :=
    (List.range 4).foldl (fun cb c => cb.set (15 - c) (byte (u32 b >>> (c * 8)))) counterBlock
  (List.range 4).foldl
    (fun cb c => cb.set (15 - c - 4) (byte ((u32 b >>> (sequence % 32)) >>> (c * 8))))
    counterBlock

/-- The value of the counter block's last 8 bytes (positions 8..15) after one
pass of the two loops of `setCtr`: positions 15..12 receive bytes 0..3 of the
32-bit block index (LSB first into 15) and positions 11..8 receive bytes 0..3
of the shifted block index (LSB first into 11). -/
def ctrTail (b sequence : Nat) : List Nat :=
  [byte ((u32 b >>> (sequence % 32)) >>> 24), byte ((u32 b >>> (sequence % 32)) >>> 16),
   byte ((u32 b >>> (sequence % 32)) >>> 8), byte (u32 b >>> (sequence % 32)),
   byte (u32 b >>> 24), byte (u32 b >>> 16), byte (u32 b >>> 8), byte (u32 b)]

/-- Length of the block at index `b` when processing a data stream of `L`
bytes: 16 for every block but the last, `(L-1) % 16 + 1` for the last. -/
def blkLen (L b : Nat) : Nat := if b < (L + 15) / 16 - 1 then 16 else (L - 1) % 16 + 1

/-- The output stream of the block loops, written as the concatenation of its
per-block slices: block `b` contributes `blkLen L b` bytes `g b 0 .. `. -/
def chunked (L : Nat) (g : Nat → Nat → Nat) : List Nat :=
  ((List.range ((L + 15) / 16)).map fun b => (List.range (blkLen L b)).map (g b)).flatten

/-- The block loop of `encrypt`: for each block index `b`, update the counter
block, encrypt it, and XOR the keystream into the output at
`bindex = 8 + b*16` (modelled by appending, since the writes are contiguous
and in order).  The final block length is `(plaintext.length-1) % 16 + 1`. -/
def encryptBlocks (keySchedule : List (List Nat)) (counterBlock0 : List Nat)
    (sequence : Nat) (plaintext : List Nat) : List Nat :=
  let blockSize := 16
  let blockCount := (plaintext.length + 15) / blockSize
  ((List.range blockCount).foldl
    (fun st b =>
      let counterBlock := setCtr st.1 b sequence
      let cipherCntr := Aes.cipher counterBlock keySchedule
      let blockLength := if b < blockCount - 1 then blockSize else (plaintext.length - 1) % blockSize + 1
      (counterBlock,
        st.2 ++ (List.range blockLength).map fun i =>
          byte (cipherCntr.getD i 0 ^^^ plaintext.getD (b * blockSize + i) 0)))
    (counterBlock0, [])).2

/-- The block loop of `decrypt`: identical counter handling; the XOR input is
read from the ciphertext at offset `bindex = 8 + b*16` and the block count and
final block length are computed from `ciphertext.length - 8`. -/
def decryptBlocks (keySchedule : List (List Nat)) (counterBlock0 : List Nat)
    (sequence : Nat) (ciphertext : List Nat) : List Nat :=
  let blockSize := 16
  let plaintextLen := ciphertext.length - 8
  let blockCount := (plaintextLen + 15) / blockSize
  ((List.range blockCount).foldl
    (fun st b =>
      let counterBlock := setCtr st.1 b sequence
      let cipherCntr := Aes.cipher counterBlock keySchedule
      let blockLength := if b < blockCount - 1 then blockSize else (plaintextLen - 1) % blockSize + 1
      (counterBlock,
        st.2 ++ (List.range blockLength).map fun i =>
          byte (cipherCntr.getD i 0 ^^^ ciphertext.getD (8 + b * blockSize + i) 0)))
    (counterBlock0, [])).2

/-- `AesCtrP.encrypt(plaintext, password, nBits, sequence, nonce)`.  The order
follows the source: the sequence line runs first (and can hang), then the key
size check returns `''`, then key derivation, nonce handling (zeroed), the
header write `ciphertext[i] = counterBlock[i]` for `i < 8`, and the block loop.
Inputs are coerced to bytes as `new Uint8Array(...)` does. -/
def encrypt (plaintext password : List Nat) (nBits : Nat)
    (sequence : Option Nat) (nonce : Option Nat) : JsResult :=
  match shiftOf sequence with
  | none => JsResult.hang
  | some sequence =>
    if nBits = 128 ∨ nBits = 192 ∨ nBits = 256 then
      let password := password.map byte
      let plaintext := plaintext.map byte
      let nBytes := nBits / 8
      let key := deriveKey password nBytes
      let counterBlock := initCounterBlock nonce
      let keySchedule := Aes.keyExpansion key
      JsResult.ok (counterBlock.take 8 ++ encryptBlocks keySchedule counterBlock sequence plaintext)
    else JsResult.ok []

/-- `AesCtrP.decrypt(ciphertext, password, nBits, sequence)`.  Here the key
size check precedes the sequence line; `new Uint8Array(ciphertext.length - 8)`
throws a `RangeError` when the length is below 8; the counter block is a plain
`Array(16)` whose first 8 slots are copied from the ciphertext header (the
unset slots 8..15, modelled as 0, are fully overwritten before first use). -/
def decrypt (ciphertext password : List Nat) (nBits : Nat)
    (sequence : Option Nat) : JsResult :=
  if nBits = 128 ∨ nBits = 192 ∨ nBits = 256 then
    match shiftOf sequence with
    | none => JsResult.hang
    | some sequence =>
      let password := password.map byte
      let ciphertext := ciphertext.map byte
      let nBytes := nBits / 8
      let key := deriveKey password nBytes
      if ciphertext.length < 8 then JsResult.err
      else
        let counterBlock := ciphertext.take 8 ++ List.replicate 8 0
        let keySchedule := Aes.keyExpansion key
        JsResult.ok (decryptBlocks keySchedule counterBlock sequence ciphertext)
  else JsResult.ok []

/-- Composition used by the round-trip claims: encrypt with `seqEnc`, then — if
encryption returned — decrypt the produced ciphertext with `seqDec`. -/
def roundTrip (plaintext password : List Nat) (nBits : Nat)
    (seqEnc seqDec : Option Nat) (nonce : Option Nat) : JsResult :=
  match encrypt plaintext password nBits seqEnc nonce with
  | JsResult.ok c => decrypt c password nBits seqDec
  | r => r

end AesCtrP

set_option maxRecDepth 100000

/-- The modelled cipher reproduces the FIPS-197 appendix C.1 AES-128 vector,
evidencing that the spec-modelled collaborator is the standard block cipher. -/
theorem aes_fips197_c1 :
    Aes.cipher
      [0x00, 0x11, 0x22, 0x33, 0x44, 0x55, 0x66, 0x77,
       0x88, 0x99, 0xaa, 0xbb, 0xcc, 0xdd, 0xee, 0xff]
      (Aes.keyExpansion
        [0x00, 0x01, 0x02, 0x03, 0x04, 0x05, 0x06, 0x07,
         0x08, 0x09, 0x0a, 0x0b, 0x0c, 0x0d, 0x0e, 0x0f]) =
    [0x69, 0xc4, 0xe0, 0xd8, 0x6a, 0x7b, 0x04, 0x30,
     0xd8, 0xcd, 0xb7, 0x80, 0x70, 0xb4, 0xc5, 0x5a] := by
  decide

/-- End-to-end evaluation of the embedding: a concrete ciphertext (all-zero
header, AES-CTR body) and its concrete round trip, computed by the kernel. -/
theorem encrypt_concrete_eval :
    AesCtrP.encrypt [1, 2, 3] [7] 128 none (some 0) =
      AesCtrP.JsResult.ok [0, 0, 0, 0, 0, 0, 0, 0, 90, 255, 240] ∧
    AesCtrP.roundTrip [1, 2, 3] [7] 128 none none (some 0) =
      AesCtrP.JsResult.ok [1, 2, 3] := by
  exact ⟨by decide, by decide⟩

namespace AesCtrP

/-- Once the 32-bit value reaches 0, `x << 1` keeps it at 0 and the sign test
never fires: the `while (1)` loop of `leadingZeros` runs forever (the result is
`none` for every fuel). -/
theorem lzLoop_zero (fuel n : Nat) : lzLoop fuel n 0 = none := by
  induction fuel generalizing n with
  | zero => rfl
  | succ fuel ih => simpa [lzLoop, shl32] using ih (n + 1)

/-- Doubling a positive natural increments its base-2 logarithm. -/
theorem log2_double (z : Nat) (h : 0 < z) : Nat.log2 (z * 2) = Nat.log2 z + 1 := by
  have hz : z ≠ 0 := by omega
  have h1 : 2 ^ (Nat.log2 z + 1) ≤ z * 2 := by
    have := Nat.log2_self_le hz
    rw [pow_succ]
    omega
  have h2 : z * 2 < 2 ^ (Nat.log2 z + 2) := by
    have := Nat.lt_log2_self (n := z)
    have e : (2 : Nat) ^ (Nat.log2 z + 2) = 2 ^ (Nat.log2 z + 1) * 2 := by rw [pow_succ]
    rw [e]
    omega
  have hle : Nat.log2 z + 1 ≤ Nat.log2 (z * 2) := (Nat.le_log2 (by omega)).2 h1
  have hlt : Nat.log2 (z * 2) < Nat.log2 z + 2 := (Nat.log2_lt (by omega)).2 h2
  omega

/-- Characterisation of the loop on a positive 32-bit value `z`: it breaks
after `31 - log2 z` further doublings, returning `n + 32 + (31 - log2 z)`. -/
theorem lzLoop_pos (fuel n z : Nat) (h0 : 0 < z) (hlt : z < 4294967296)
    (hfuel : 31 - Nat.log2 z < fuel) :
    lzLoop fuel n z = some (n + 32 + (31 - Nat.log2 z)) := by
  induction fuel generalizing n z with
  | zero => omega
  | succ fuel ih =>
    by_cases hz : 2147483648 ≤ z
    · have h31 : 31 ≤ Nat.log2 z := by
        refine (Nat.le_log2 (by omega)).2 ?_
        norm_num
        omega
      have h32 : Nat.log2 z < 32 := by
        refine (Nat.log2_lt (by omega)).2 ?_
        norm_num
        omega
      have : Nat.log2 z = 31 := by omega
      simp [lzLoop, hz, this]
    · push_neg at hz
      have hshl : shl32 z = z * 2 := by
        unfold shl32
        omega
      have hlog : Nat.log2 (z * 2) = Nat.log2 z + 1 := log2_double z h0
      have hlogz : Nat.log2 z < 31 := by
        refine (Nat.log2_lt (by omega)).2 ?_
        norm_num
        omega
      rw [lzLoop, if_neg (by omega), hshl,
        ih (n + 1) (z * 2) (by omega) (by omega) (by omega)]
      congr 1
      omega

/-- `leadingZeros` on an input whose low 31 bits are nonzero terminates with
value `63 - log2 (x mod 2^31)`; the bits at positions ≥ 31 are discarded by the
first 32-bit shift. -/
theorem leadingZeros_of_low_pos (x : Nat) (h : x % 2147483648 ≠ 0) :
    leadingZeros x = some (63 - Nat.log2 (x % 2147483648)) := by
  have hx : x ≠ 0 := by
    intro e
    rw [e] at h
    exact h rfl
  have hz : x * 2 % 4294967296 = x % 2147483648 * 2 := by omega
  have h0 : 0 < x % 2147483648 := Nat.pos_of_ne_zero h
  have hlt : x % 2147483648 < 2147483648 := Nat.mod_lt _ (by norm_num)
  have hlog : Nat.log2 (x % 2147483648 * 2) = Nat.log2 (x % 2147483648) + 1 :=
    log2_double _ h0
  have hlogr : Nat.log2 (x % 2147483648) < 31 := by
    refine (Nat.log2_lt (by omega)).2 ?_
    norm_num
    omega
  rw [leadingZeros, if_neg hx, hz,
    lzLoop_pos 64 1 _ (by omega) (by omega) (by omega), hlog]
  congr 1
  omega

/-- `leadingZeros` on a nonzero input whose low 31 bits are all zero never
terminates (its 64-unit fuel is exhausted with the loop value stuck at 0). -/
theorem leadingZeros_of_low_zero (x : Nat) (hx : x ≠ 0) (h : x % 2147483648 = 0) :
    leadingZeros x = none := by
  have hz : x * 2 % 4294967296 = 0 := by omega
  rw [leadingZeros, if_neg hx, hz]
  exact lzLoop_zero 64 1

/-- The derived shift for a supplied sequence with nonzero low 31 bits is
`bitlength (s mod 2^31)`, i.e. `log2 (s mod 2^31) + 1`. -/
theorem shiftOf_some_low_pos (s : Nat) (h : s % 2147483648 ≠ 0) :
    shiftOf (some s) = some (Nat.log2 (s % 2147483648) + 1) := by
  have hlogr : Nat.log2 (s % 2147483648) < 31 := by
    refine (Nat.log2_lt (by omega)).2 ?_
    norm_num
    omega
  rw [shiftOf, leadingZeros_of_low_pos s h, Option.map_some']
  congr 1
  omega

/-- The shift derivation hangs exactly on supplied nonzero multiples of 2^31. -/
theorem shiftOf_some_low_zero (s : Nat) (hs : s ≠ 0) (h : s % 2147483648 = 0) :
    shiftOf (some s) = none := by
  rw [shiftOf, leadingZeros_of_low_zero s hs h]
  rfl

end AesCtrP

namespace AesCtrP

/-- The two counter-setting loops fully overwrite bytes 8..15 and leave the
8-byte header untouched: on a 16-byte buffer, `setCtr` yields the unchanged
header followed by `ctrTail`. -/
theorem setCtr_eq (cb : List Nat) (b s : Nat) (h : cb.length = 16) :
    setCtr cb b s = cb.take 8 ++ ctrTail b s := by
  rcases cb with _|⟨a0,_|⟨a1,_|⟨a2,_|⟨a3,_|⟨a4,_|⟨a5,_|⟨a6,_|⟨a7,_|⟨a8,_|⟨a9,_|⟨a10,_|⟨a11,_|⟨a12,_|⟨a13,_|⟨a14,_|⟨a15,_|⟨a16,cb⟩⟩⟩⟩⟩⟩⟩⟩⟩⟩⟩⟩⟩⟩⟩⟩⟩
  all_goals first
  | rfl
  | (exfalso; simp only [List.length_cons, List.length_nil] at h; omega)

/-- Shape of the shared block loop: starting from any 16-byte counter buffer,
the loop state keeps length 16 and its first 8 bytes, and the accumulated
output is the concatenation of the per-block contributions, where block `b` is
computed from the counter value `header ++ ctrTail b s`. -/
theorem ctrFold_spec (s : Nat) (G : List Nat → Nat → List Nat) :
    ∀ (n : Nat) (cb acc : List Nat), cb.length = 16 →
      ((List.range n).foldl (fun st b => (setCtr st.1 b s, st.2 ++ G (setCtr st.1 b s) b)) (cb, acc)).1.length = 16 ∧
      ((List.range n).foldl (fun st b => (setCtr st.1 b s, st.2 ++ G (setCtr st.1 b s) b)) (cb, acc)).1.take 8 = cb.take 8 ∧
      ((List.range n).foldl (fun st b => (setCtr st.1 b s, st.2 ++ G (setCtr st.1 b s) b)) (cb, acc)).2 =
        acc ++ ((List.range n).map fun b => G (cb.take 8 ++ ctrTail b s) b).flatten := by
  intro n
  induction n with
  | zero =>
    intro cb acc h
    simp [h]
  | succ n ih =>
    intro cb acc h
    obtain ⟨ih1, ih2, ih3⟩ := ih cb acc h
    rw [List.range_succ, List.foldl_append]
    simp only [List.foldl_cons, List.foldl_nil]
    set q := (List.range n).foldl
      (fun st b => (setCtr st.1 b s, st.2 ++ G (setCtr st.1 b s) b)) (cb, acc) with hq
    have hset : setCtr q.1 n s = cb.take 8 ++ ctrTail n s := by
      rw [setCtr_eq q.1 n s ih1, ih2]
    have htakelen : (cb.take 8).length = 8 := by simp [List.length_take, h]
    refine ⟨?_, ?_, ?_⟩
    · rw [hset]
      simp [ctrTail, htakelen]
    · rw [hset]
      exact List.take_left' htakelen
    · rw [hset, ih3, List.map_append, List.flatten_append]
      simp [List.append_assoc]

end AesCtrP

namespace AesCtrP

/-- `encryptBlocks` written as the concatenation of its per-block outputs:
block `b` XORs the encryption of `header ++ ctrTail b s` with the plaintext
slice starting at `b * 16`. -/
theorem encryptBlocks_eq (ks : List (List Nat)) (cb0 : List Nat) (s : Nat) (data : List Nat)
    (h : cb0.length = 16) :
    encryptBlocks ks cb0 s data =
      chunked data.length fun b i =>
        byte ((Aes.cipher (cb0.take 8 ++ ctrTail b s) ks).getD i 0 ^^^ data.getD (b * 16 + i) 0) :=
  (ctrFold_spec s
    (fun cb b =>
      (List.range (if b < (data.length + 15) / 16 - 1 then 16 else (data.length - 1) % 16 + 1)).map
        fun i => byte ((Aes.cipher cb ks).getD i 0 ^^^ data.getD (b * 16 + i) 0))
    ((data.length + 15) / 16) cb0 [] h).2.2

/-- `decryptBlocks` written as the concatenation of its per-block outputs:
block `b` XORs the encryption of `header ++ ctrTail b s` with the ciphertext
slice starting at `8 + b * 16`. -/
theorem decryptBlocks_eq (ks : List (List Nat)) (cb0 : List Nat) (s : Nat) (ct : List Nat)
    (h : cb0.length = 16) :
    decryptBlocks ks cb0 s ct =
      chunked (ct.length - 8) fun b i =>
        byte ((Aes.cipher (cb0.take 8 ++ ctrTail b s) ks).getD i 0 ^^^ ct.getD (8 + b * 16 + i) 0) :=
  (ctrFold_spec s
    (fun cb b =>
      (List.range
        (if b < (ct.length - 8 + 15) / 16 - 1 then 16 else (ct.length - 8 - 1) % 16 + 1)).map
        fun i => byte ((Aes.cipher cb ks).getD i 0 ^^^ ct.getD (8 + b * 16 + i) 0))
    ((ct.length - 8 + 15) / 16) cb0 [] h).2.2

/-- Every block but the last is full. -/
theorem blkLen_full (L b : Nat) (h : b < (L + 15) / 16 - 1) : blkLen L b = 16 := by
  unfold blkLen
  rw [if_pos h]

/-- A block stream has blocks of length at most 16. -/
theorem blkLen_le (L b : Nat) : blkLen L b ≤ 16 := by
  unfold blkLen
  by_cases h : b < (L + 15) / 16 - 1 <;> simp [h] <;> omega

/-- The first `b` blocks of a chunked stream occupy exactly `b * 16` bytes. -/
theorem chunked_prefix_length (L : Nat) (g : Nat → Nat → Nat) (b : Nat)
    (hb : b < (L + 15) / 16) :
    (((List.range b).map fun j => (List.range (blkLen L j)).map (g j)).flatten).length = b * 16 := by
  rw [List.length_flatten]
  simp only [List.map_map, Function.comp_def, List.length_map, List.length_range]
  have h2 : ((List.range b).map fun j => blkLen L j) = List.replicate b 16 := by
    refine List.eq_replicate_iff.2 ⟨by simp, ?_⟩
    intro x hx
    simp only [List.mem_map, List.mem_range] at hx
    obtain ⟨j, hj, rfl⟩ := hx
    exact blkLen_full L j (by omega)
  rw [h2, List.sum_replicate, smul_eq_mul]

/-- Length of the full chunked stream. -/
theorem chunked_length (L : Nat) (g : Nat → Nat → Nat) : (chunked L g).length = L := by
  unfold chunked
  rw [List.length_flatten]
  simp only [List.map_map, Function.comp_def, List.length_map, List.length_range]
  rcases Nat.eq_zero_or_pos L with hL | hL
  · simp [hL]
  · have hbc : (L + 15) / 16 = (L - 1) / 16 + 1 := by omega
    rw [hbc, List.range_succ, List.map_append, List.sum_append]
    have h2 : ((List.range ((L - 1) / 16)).map fun j => blkLen L j) =
        List.replicate ((L - 1) / 16) 16 := by
      refine List.eq_replicate_iff.2 ⟨by simp, ?_⟩
      intro x hx
      simp only [List.mem_map, List.mem_range] at hx
      obtain ⟨j, hj, rfl⟩ := hx
      exact blkLen_full L j (by omega)
    have h3 : blkLen L ((L - 1) / 16) = (L - 1) % 16 + 1 := by
      unfold blkLen
      rw [if_neg (by omega)]
    rw [h2, List.sum_replicate, smul_eq_mul]
    simp [h3]
    omega

/-- Reading the chunked stream at offset `b * 16 + i` (block `b`, byte `i`)
returns `g b i`. -/
theorem chunked_getD (L : Nat) (g : Nat → Nat → Nat) (b i : Nat)
    (hb : b < (L + 15) / 16) (hi : i < blkLen L b) :
    (chunked L g).getD (b * 16 + i) 0 = g b i := by
  unfold chunked
  have hsplit : (L + 15) / 16 = b + ((L + 15) / 16 - b) := by omega
  rw [hsplit, List.range_add, List.map_append, List.flatten_append]
  have hpre := chunked_prefix_length L g b hb
  rw [List.getD_append_right _ _ _ _ (by omega)]
  rw [show b * 16 + i -
      (((List.range b).map fun j => (List.range (blkLen L j)).map (g j)).flatten).length = i by omega]
  have hk : (L + 15) / 16 - b = ((L + 15) / 16 - b - 1) + 1 := by omega
  rw [hk, List.range_succ_eq_map]
  simp only [List.map_cons, List.flatten_cons, Nat.add_zero]
  rw [List.getD_append _ _ _ _ (by simpa using hi)]
  rw [List.getD_eq_getElem _ _ (by simpa using hi)]
  simp

end AesCtrP

namespace AesCtrP

/-- XOR-involution through 8-bit truncation: re-XORing the keystream byte
recovers the original byte (mod 256), for arbitrary (untruncated) keystream. -/
theorem byte_xor_cancel (a b : Nat) : byte (a ^^^ byte (a ^^^ b)) = byte b := by
  unfold byte
  have h256 : (256 : Nat) = 2 ^ 8 := by norm_num
  rw [h256]
  apply Nat.eq_of_testBit_eq
  intro i
  simp only [Nat.testBit_mod_two_pow, Nat.testBit_xor]
  by_cases hi : i < 8
  · simp only [hi, decide_True, Bool.true_and]
    cases a.testBit i <;> cases b.testBit i <;> rfl
  · simp [hi]

/-- Truncation is the identity on bytes. -/
theorem byte_eq_self (x : Nat) (h : x < 256) : byte x = x := Nat.mod_eq_of_lt h

/-- `byte` is idempotent. -/
theorem byte_byte (x : Nat) : byte (byte x) = byte x := Nat.mod_mod_of_dvd x dvd_rfl

/-- Every entry read (with default 0) from a byte-coerced array is a byte. -/
theorem mapByte_getD_lt (P : List Nat) (k : Nat) : (P.map byte).getD k 0 < 256 := by
  by_cases h : k < (P.map byte).length
  · rw [List.getD_eq_getElem _ _ h]
    simp only [List.getElem_map]
    exact Nat.mod_lt _ (by norm_num)
  · rw [List.getD_eq_default _ _ (by omega)]
    norm_num

/-- Two chunked streams with pointwise-equal block functions are equal. -/
theorem chunked_congr (L : Nat) (g1 g2 : Nat → Nat → Nat)
    (h : ∀ b, b < (L + 15) / 16 → ∀ i, i < blkLen L b → g1 b i = g2 b i) :
    chunked L g1 = chunked L g2 := by
  unfold chunked
  congr 1
  refine List.map_congr_left ?_
  intro b hb
  refine List.map_congr_left ?_
  intro i hi
  exact h b (List.mem_range.1 hb) i (List.mem_range.1 hi)

/-- Reassembling a byte stream from its own chunks gives the stream back. -/
theorem chunked_getD_self (data : List Nat) :
    chunked data.length (fun b i => data.getD (b * 16 + i) 0) = data := by
  have hlen : (chunked data.length fun b i => data.getD (b * 16 + i) 0).length = data.length :=
    chunked_length _ _
  apply List.ext_getElem hlen
  intro k h1 h2
  have hk : k < data.length := h2
  have hb : k / 16 < (data.length + 15) / 16 := by omega
  have hi : k % 16 < blkLen data.length (k / 16) := by
    unfold blkLen
    by_cases hc : k / 16 < (data.length + 15) / 16 - 1
    · rw [if_pos hc]
      omega
    · rw [if_neg hc]
      omega
  have hmain : (chunked data.length fun b i => data.getD (b * 16 + i) 0).getD
        (k / 16 * 16 + k % 16) 0 = data.getD (k / 16 * 16 + k % 16) 0 :=
    chunked_getD data.length (fun b i => data.getD (b * 16 + i) 0) (k / 16) (k % 16) hb hi
  rw [show k / 16 * 16 + k % 16 = k from by omega] at hmain
  rw [← List.getD_eq_getElem (chunked data.length fun b i => data.getD (b * 16 + i) 0) 0 h1,
    ← List.getD_eq_getElem data 0 h2]
  exact hmain

/-- Every element of a chunked stream whose block function produces bytes is
a byte. -/
theorem chunked_mem_lt (L : Nat) (g : Nat → Nat → Nat) (hg : ∀ b i, g b i < 256) :
    ∀ x ∈ chunked L g, x < 256 := by
  intro x hx
  unfold chunked at hx
  simp only [List.mem_flatten, List.mem_map, List.mem_range] at hx
  obtain ⟨l, ⟨b, hb, rfl⟩, hxl⟩ := hx
  simp only [List.mem_map, List.mem_range] at hxl
  obtain ⟨i, hi, rfl⟩ := hxl
  exact hg b i

end AesCtrP

namespace AesCtrP

/-- With the nonce sub-fields zeroed by the source, the initialised counter
block is all zeros, whatever the nonce argument. -/
theorem initCounterBlock_eq (nonce : Option Nat) : initCounterBlock nonce = List.replicate 16 0 :=
  rfl

/-- Normal form of a successful `encrypt`: the all-zero 8-byte header followed
by the block-loop output on the byte-coerced plaintext. -/
theorem encrypt_ok (P pw : List Nat) (bits : Nat) (seq : Option Nat) (N : Option Nat) (s : Nat)
    (hb : bits = 128 ∨ bits = 192 ∨ bits = 256) (hs : shiftOf seq = some s) :
    encrypt P pw bits seq N =
      JsResult.ok (List.replicate 8 0 ++
        encryptBlocks (Aes.keyExpansion (deriveKey (pw.map byte) (bits / 8)))
          (List.replicate 16 0) s (P.map byte)) := by
  simp only [encrypt, hs]
  rw [if_pos hb, initCounterBlock_eq]
  norm_num [List.take_replicate]

/-- Entries of `P.getD · 0` are bytes when `P` is a byte sequence. -/
theorem getD_lt_of_bytes (P : List Nat) (hP : ∀ x ∈ P, x < 256) (k : Nat) :
    P.getD k 0 < 256 := by
  by_cases hk : k < P.length
  · rw [List.getD_eq_getElem _ _ hk]
    exact hP _ (List.getElem_mem hk)
  · rw [List.getD_eq_default _ _ (by omega)]
    norm_num

/-- Core round-trip property: for a valid key size, a plaintext of bytes and
sequence arguments whose shift derivations terminate with the same shift,
decrypting the encryption returns the plaintext. -/
theorem decrypt_encrypt_ok (P pw : List Nat) (bits : Nat) (seqE seqD : Option Nat)
    (N : Option Nat) (s : Nat)
    (hb : bits = 128 ∨ bits = 192 ∨ bits = 256)
    (hP : ∀ x ∈ P, x < 256)
    (hsE : shiftOf seqE = some s) (hsD : shiftOf seqD = some s) :
    roundTrip P pw bits seqE seqD N = JsResult.ok P := by
  set ks := Aes.keyExpansion (deriveKey (pw.map byte) (bits / 8)) with hks
  have hP1 : P.map byte = P := by
    conv_rhs => rw [← List.map_id P]
    exact List.map_congr_left fun x hx => byte_eq_self x (hP x hx)
  have hcb16 : (List.replicate 16 0 : List Nat).length = 16 := by simp
  have htake : (List.replicate 16 0 : List Nat).take 8 = List.replicate 8 0 := by
    simp [List.take_replicate]
  have henc := encrypt_ok P pw bits seqE N s hb hsE
  have hbody := encryptBlocks_eq ks (List.replicate 16 0) s (P.map byte) hcb16
  rw [hP1, htake] at hbody
  set body := chunked P.length fun b i =>
    byte ((Aes.cipher (List.replicate 8 0 ++ ctrTail b s) ks).getD i 0 ^^^ P.getD (b * 16 + i) 0)
    with hbodydef
  rw [hP1, hbody] at henc
  unfold roundTrip
  rw [henc]
  -- decrypt side
  have hlenbody : body.length = P.length := chunked_length _ _
  have hbytesbody : body.map byte = body := by
    conv_rhs => rw [← List.map_id body]
    refine List.map_congr_left fun x hx => byte_eq_self x ?_
    refine chunked_mem_lt P.length _ (fun b i => Nat.mod_lt _ (by norm_num)) x hx
  have hbytes : (List.replicate 8 0 ++ body).map byte = List.replicate 8 0 ++ body := by
    rw [List.map_append, hbytesbody]
    congr 1
  have hlenct : (List.replicate 8 0 ++ body).length = 8 + P.length := by
    simp [hlenbody]
    omega
  have hcond : ¬ ((List.replicate 8 0 ++ body).length < 8) := by
    rw [hlenct]
    omega
  have htake8 : (List.replicate 8 0 ++ body).take 8 = List.replicate 8 0 :=
    List.take_left' (by simp)
  have hjoin : (List.replicate 8 0 ++ List.replicate 8 0 : List Nat) = List.replicate 16 0 := by
    decide
  simp only [decrypt, hsD]
  rw [if_pos hb, hbytes, if_neg hcond, htake8, hjoin]
  have hdec := decryptBlocks_eq ks (List.replicate 16 0) s (List.replicate 8 0 ++ body) hcb16
  rw [htake, hlenct] at hdec
  rw [hdec]
  have hL8 : 8 + P.length - 8 = P.length := by omega
  rw [hL8]
  -- the decrypted chunked stream is P
  have hcongr : chunked P.length (fun b i =>
      byte ((Aes.cipher (List.replicate 8 0 ++ ctrTail b s) ks).getD i 0 ^^^
        (List.replicate 8 0 ++ body).getD (8 + b * 16 + i) 0)) =
      chunked P.length (fun b i => P.getD (b * 16 + i) 0) := by
    refine chunked_congr P.length _ _ ?_
    intro b hbb i hii
    have hread : (List.replicate 8 0 ++ body).getD (8 + b * 16 + i) 0 =
        body.getD (b * 16 + i) 0 := by
      rw [List.getD_append_right _ _ _ _ (by simp only [List.length_replicate]; omega)]
      congr 1
      simp only [List.length_replicate]
      omega
    have hbodyget : body.getD (b * 16 + i) 0 =
        byte ((Aes.cipher (List.replicate 8 0 ++ ctrTail b s) ks).getD i 0 ^^^
          P.getD (b * 16 + i) 0) :=
      chunked_getD P.length _ b i hbb hii
    rw [hread, hbodyget, byte_xor_cancel]
    exact byte_eq_self _ (getD_lt_of_bytes P hP _)
  rw [hcongr, chunked_getD_self P]

end AesCtrP

namespace AesCtrP

/-- Normal form of a successful `decrypt` (valid key size, terminating shift,
ciphertext of at least 8 bytes). -/
theorem decrypt_ok (C pw : List Nat) (bits : Nat) (seq : Option Nat) (s : Nat)
    (hb : bits = 128 ∨ bits = 192 ∨ bits = 256) (hs : shiftOf seq = some s)
    (hC : 8 ≤ C.length) :
    decrypt C pw bits seq =
      JsResult.ok (decryptBlocks (Aes.keyExpansion (deriveKey (pw.map byte) (bits / 8)))
        ((C.map byte).take 8 ++ List.replicate 8 0) s (C.map byte)) := by
  simp only [decrypt, hs]
  rw [if_pos hb, if_neg (by rw [List.length_map]; omega)]

/-- Reading past an 8-byte prefix lands in the suffix. -/
theorem getD_append8 (t : List Nat) (ht : t.length = 8) (l : List Nat) (k : Nat) :
    (t ++ l).getD (8 + k) 0 = l.getD k 0 := by
  rw [List.getD_append_right _ _ _ _ (by omega)]
  congr 1
  omega

/-- The low 8 counter bytes determine the 32-bit block index: different block
indices below 2^32 give different `ctrTail`s (bytes 12..15 already differ). -/
theorem ctrTail_inj (b1 b2 s : Nat) (h1 : b1 < 4294967296) (h2 : b2 < 4294967296)
    (hne : b1 ≠ b2) : ctrTail b1 s ≠ ctrTail b2 s := by
  intro he
  unfold ctrTail at he
  simp only [List.cons.injEq, and_true] at he
  obtain ⟨-, -, -, -, e5, e6, e7, e8⟩ := he
  apply hne
  unfold byte u32 at e5 e6 e7 e8
  rw [Nat.shiftRight_eq_div_pow] at e5 e6 e7
  norm_num at e5 e6 e7
  omega

end AesCtrP

namespace AesCtrP

/-- C1 (counterexample to the claim as stated): the spec's round-trip set
includes the sequence value 2^63, but there the shift derivation loops forever
(`leadingZeros` never breaks once the 32-bit value is 0), so
`decrypt(encrypt(P, pw, 128, 2^63, 0), pw, 128, 2^63)` does not return `P` —
the very first call never returns. -/
theorem roundTrip_hangs_on_two_pow_63 :
    roundTrip [] [] 128 (some (2 ^ 63)) (some (2 ^ 63)) (some 0) ≠ JsResult.ok [] := by
  decide

/-- C1 (amended): for every byte sequence `P` (including the empty one), every
password, every `nBits ∈ {128,192,256}`, every nonce (supplied or absent) and
every sequence argument on which the shift derivation terminates — absent,
zero, or with nonzero low 31 bits — decrypting the encryption with the same
sequence returns exactly `P`. -/
theorem roundTrip_ok_of_shift_terminates (P pw : List Nat) (bits : Nat) (seq : Option Nat)
    (N : Option Nat) (s : Nat)
    (hb : bits = 128 ∨ bits = 192 ∨ bits = 256)
    (hP : ∀ x ∈ P, x < 256)
    (hs : shiftOf seq = some s) :
    roundTrip P pw bits seq seq N = JsResult.ok P :=
  decrypt_encrypt_ok P pw bits seq seq N s hb hP hs hs

/-- C1 witness: the round-trip theorem applied at a concrete input. -/
theorem roundTrip_ok_of_shift_terminates_witness :
    ((128 = 128 ∨ 128 = 192 ∨ 128 = 256) ∧ (∀ x ∈ [10, 200], x < 256) ∧
      shiftOf (some 5) = some 3) ∧
      roundTrip [10, 200] [1, 2, 3] 128 (some 5) (some 5) (some 7) = JsResult.ok [10, 200] :=
  ⟨⟨by decide, by decide, by decide⟩,
    roundTrip_ok_of_shift_terminates [10, 200] [1, 2, 3] 128 (some 5) (some 7) 3
      (by decide) (by decide) (by decide)⟩

/-- C2: the bit-length computation does not terminate on `sequence = 2^63`
(a nonzero multiple of 2^31, hence of 2^32 as well): after the first 32-bit
shift the loop value is 0 and `shl32` keeps it 0, so no amount of fuel makes
`lzLoop` break — and both `encrypt` and `decrypt` hang on that sequence. -/
theorem leadingZeros_diverges_on_two_pow_63 :
    (∀ fuel n, lzLoop fuel n (2 ^ 63 * 2 % 4294967296) = none) ∧
      leadingZeros (2 ^ 63) = none ∧
      encrypt [0] [0] 128 (some (2 ^ 63)) (some 0) = JsResult.hang ∧
      decrypt (List.replicate 9 0) [0] 128 (some (2 ^ 63)) = JsResult.hang := by
  refine ⟨?_, by decide, by decide, by decide⟩
  intro fuel n
  rw [show (2 ^ 63 * 2 % 4294967296 : Nat) = 0 from by norm_num]
  exact lzLoop_zero fuel n

/-- C3: the nonce is never packed into the header.  The source computes the
`nonceMs`/`nonceSec`/`nonceRnd` sub-fields as its comments (and the spec §4.2)
describe, but the line `nonce = nonceMs = nonceSec = nonceRnd = 0;` zeroes
them before packing, so the first 8 bytes of every ciphertext are 0.  At
nonce 1 the claimed packing would put `1 mod 1000 = 1 ≠ 0` into byte 0. -/
theorem encrypt_header_zeroed_ignores_nonce :
    encrypt [] [] 128 none (some 1) = JsResult.ok (List.replicate 8 0) ∧
      (1 : Nat) % 1000 ≠ 0 := by
  exact ⟨by decide, by decide⟩

/-- C4 (counterexample to the claim as stated): a supplied sequence of 0 yields
shift 0 (`64 - leadingZeros(0) = 64 - 64`), not 64. -/
theorem shiftOf_zero_not_sixtyfour : shiftOf (some 0) = some 0 ∧ shiftOf (some 0) ≠ some 64 := by
  decide

/-- C4 (amended): the shift is 8 when the sequence is absent; a supplied 0
yields shift 0 (so `b >>> 0` keeps every bit of the block index); a supplied
`s` with nonzero low 31 bits yields `64 - leadingZeros(s) =
bitlength(s mod 2^31)`; and a supplied 0 is still distinguished from an
omitted sequence (shift 0 vs 8). -/
theorem shiftOf_spec :
    shiftOf none = some 8 ∧
      shiftOf (some 0) = some 0 ∧
      (∀ s : Nat, s % 2147483648 ≠ 0 →
        shiftOf (some s) = some (Nat.log2 (s % 2147483648) + 1)) ∧
      shiftOf (some 0) ≠ shiftOf none := by
  refine ⟨by decide, by decide, ?_, by decide⟩
  intro s hs
  exact shiftOf_some_low_pos s hs

/-- C4 witness: the supplied-sequence branch applied at 5 (bit-length 3). -/
theorem shiftOf_spec_witness :
    (5 : Nat) % 2147483648 ≠ 0 ∧ shiftOf (some 5) = some (Nat.log2 (5 % 2147483648) + 1) :=
  ⟨by decide, shiftOf_spec.2.2.1 5 (by decide)⟩

/-- C5 (counterexample to the claim as stated): take a supplied sequence 5, so
the shift is 3, and block index 8.  Counter byte 11 is 1, the low byte of the
shifted block index `8 >>> 3`, whereas the claim says it holds the low byte of
`sequence >> shift = 5 >>> 3`, which is 0. -/
theorem counter_high_word_not_shifted_sequence :
    shiftOf (some 5) = some 3 ∧
      (setCtr (List.replicate 16 0) 8 3).getD 11 0 = 1 ∧
      byte (5 >>> 3) = 0 := by
  decide

/-- C5 (amended): in both loops' output, bytes 15, 14, 13, 12 hold bytes 0..3
of the 32-bit block index (LSB first into byte 15), and bytes 11, 10, 9, 8
hold bytes 0..3 of `(b >>> shift)` — the *block index* right-shifted by the
shift amount, not the sequence value (LSB first into byte 11). -/
theorem setCtr_bytes (cb : List Nat) (b s : Nat) (h : cb.length = 16) :
    ((setCtr cb b s).getD 15 0 = byte (u32 b) ∧
      (setCtr cb b s).getD 14 0 = byte (u32 b >>> 8) ∧
      (setCtr cb b s).getD 13 0 = byte (u32 b >>> 16) ∧
      (setCtr cb b s).getD 12 0 = byte (u32 b >>> 24)) ∧
    ((setCtr cb b s).getD 11 0 = byte (u32 b >>> (s % 32)) ∧
      (setCtr cb b s).getD 10 0 = byte ((u32 b >>> (s % 32)) >>> 8) ∧
      (setCtr cb b s).getD 9 0 = byte ((u32 b >>> (s % 32)) >>> 16) ∧
      (setCtr cb b s).getD 8 0 = byte ((u32 b >>> (s % 32)) >>> 24)) := by
  have he := setCtr_eq cb b s h
  have htl : (cb.take 8).length = 8 := by simp [h]
  refine ⟨⟨?_, ?_, ?_, ?_⟩, ?_, ?_, ?_, ?_⟩
  · rw [he, show (15 : Nat) = 8 + 7 from rfl, getD_append8 _ htl]
    rfl
  · rw [he, show (14 : Nat) = 8 + 6 from rfl, getD_append8 _ htl]
    rfl
  · rw [he, show (13 : Nat) = 8 + 5 from rfl, getD_append8 _ htl]
    rfl
  · rw [he, show (12 : Nat) = 8 + 4 from rfl, getD_append8 _ htl]
    rfl
  · rw [he, show (11 : Nat) = 8 + 3 from rfl, getD_append8 _ htl]
    rfl
  · rw [he, show (10 : Nat) = 8 + 2 from rfl, getD_append8 _ htl]
    rfl
  · rw [he, show (9 : Nat) = 8 + 1 from rfl, getD_append8 _ htl]
    rfl
  · rw [he, show (8 : Nat) = 8 + 0 from rfl, getD_append8 _ htl]
    rfl

/-- C5 witness: the amended byte layout at block index 258, shift 8. -/
theorem setCtr_bytes_witness :
    (List.replicate 16 0 : List Nat).length = 16 ∧
    (((setCtr (List.replicate 16 0) 258 8).getD 15 0 = byte (u32 258) ∧
      (setCtr (List.replicate 16 0) 258 8).getD 14 0 = byte (u32 258 >>> 8) ∧
      (setCtr (List.replicate 16 0) 258 8).getD 13 0 = byte (u32 258 >>> 16) ∧
      (setCtr (List.replicate 16 0) 258 8).getD 12 0 = byte (u32 258 >>> 24)) ∧
    ((setCtr (List.replicate 16 0) 258 8).getD 11 0 = byte (u32 258 >>> (8 % 32)) ∧
      (setCtr (List.replicate 16 0) 258 8).getD 10 0 = byte ((u32 258 >>> (8 % 32)) >>> 8) ∧
      (setCtr (List.replicate 16 0) 258 8).getD 9 0 = byte ((u32 258 >>> (8 % 32)) >>> 16) ∧
      (setCtr (List.replicate 16 0) 258 8).getD 8 0 = byte ((u32 258 >>> (8 % 32)) >>> 24))) :=
  ⟨by decide, setCtr_bytes (List.replicate 16 0) 258 8 (by decide)⟩

/-- C6: within one encrypt call — block indices below
`blockCount = ⌈len(plaintext)/16⌉ ≤ 2^32`, counter states sharing the 8-byte
header, as every loop iteration does — the counter blocks produced by the
counter-setting loops are pairwise distinct: bytes 12..15 carry the injective
32-bit block index. -/
theorem counterBlocks_pairwise_distinct (plaintext cb1 cb2 : List Nat) (s b1 b2 : Nat)
    (hl1 : cb1.length = 16) (hl2 : cb2.length = 16) (hhdr : cb1.take 8 = cb2.take 8)
    (hbc : (plaintext.length + 15) / 16 ≤ 4294967296)
    (h1 : b1 < (plaintext.length + 15) / 16) (h2 : b2 < (plaintext.length + 15) / 16)
    (hne : b1 ≠ b2) :
    setCtr cb1 b1 s ≠ setCtr cb2 b2 s := by
  rw [setCtr_eq cb1 b1 s hl1, setCtr_eq cb2 b2 s hl2, hhdr]
  intro he
  exact ctrTail_inj b1 b2 s (by omega) (by omega) hne (List.append_cancel_left he)

/-- C6 witness: distinct counter blocks for blocks 0 and 1 of a 17-byte
plaintext. -/
theorem counterBlocks_pairwise_distinct_witness :
    setCtr (List.replicate 16 0) 0 8 ≠ setCtr (List.replicate 16 0) 1 8 :=
  counterBlocks_pairwise_distinct (List.replicate 17 0) (List.replicate 16 0)
    (List.replicate 16 0) 8 0 1 (by decide) (by decide) rfl (by decide) (by decide)
    (by decide) (by decide)

/-- C7: for a valid key size (and a sequence whose shift derivation
terminates), `encrypt` returns a ciphertext of length `len(P) + 8` for every
plaintext `P` including the empty one, and `decrypt` on any ciphertext of
length at least 8 returns a plaintext of length `len(C) - 8`. -/
theorem encrypt_decrypt_lengths (P C pw : List Nat) (bits : Nat) (seq : Option Nat)
    (N : Option Nat) (s : Nat)
    (hb : bits = 128 ∨ bits = 192 ∨ bits = 256) (hs : shiftOf seq = some s) :
    (∃ c, encrypt P pw bits seq N = JsResult.ok c ∧ c.length = P.length + 8) ∧
      (8 ≤ C.length → ∃ p, decrypt C pw bits seq = JsResult.ok p ∧ p.length = C.length - 8) := by
  constructor
  · refine ⟨_, encrypt_ok P pw bits seq N s hb hs, ?_⟩
    rw [List.length_append, encryptBlocks_eq _ _ _ _ (by simp), chunked_length,
      List.length_map, List.length_replicate]
    omega
  · intro hC
    refine ⟨_, decrypt_ok C pw bits seq s hb hs hC, ?_⟩
    rw [decryptBlocks_eq _ _ _ _ ?hlen, chunked_length, List.length_map]
    case hlen =>
      simp only [List.length_append, List.length_take, List.length_map, List.length_replicate]
      omega

/-- C7 witness: the length relations applied at concrete inputs. -/
theorem encrypt_decrypt_lengths_witness :
    ((128 = 128 ∨ 128 = 192 ∨ 128 = 256) ∧ shiftOf none = some 8) ∧
    ((∃ c, encrypt [1, 2, 3] [7] 128 none (some 0) = JsResult.ok c ∧
        c.length = [1, 2, 3].length + 8) ∧
      (8 ≤ (List.replicate 10 0 : List Nat).length →
        ∃ p, decrypt (List.replicate 10 0) [7] 128 none = JsResult.ok p ∧
          p.length = (List.replicate 10 0 : List Nat).length - 8)) :=
  ⟨⟨by decide, by decide⟩,
    encrypt_decrypt_lengths [1, 2, 3] (List.replicate 10 0) [7] 128 none (some 0) 8
      (by decide) (by decide)⟩

/-- C8 (counterexample to the claim as stated): with the invalid key size 100
and a supplied sequence of 2^31, `encrypt` does not return an empty result
immediately — the sequence line precedes the key-size check, so the call hangs
in `leadingZeros` first. -/
theorem encrypt_invalid_bits_can_hang :
    encrypt [] [] 100 (some 2147483648) (some 0) = JsResult.hang ∧
      encrypt [] [] 100 (some 2147483648) (some 0) ≠ JsResult.ok [] := by
  decide

/-- C8 (amended): for every key size outside {128,192,256}, `decrypt` returns
the empty result immediately and unconditionally — its key-size check precedes
the sequence line, so this holds for every sequence argument, divergent ones
included — while `encrypt` returns the empty result only provided the shift
derivation of its sequence argument terminates (that line runs before the
check); neither performs key derivation or block processing. -/
theorem invalid_bits_empty_result (P C pw : List Nat) (bits : Nat) (seq : Option Nat)
    (N : Option Nat) (s : Nat)
    (hbits : ¬(bits = 128 ∨ bits = 192 ∨ bits = 256)) :
    decrypt C pw bits seq = JsResult.ok [] ∧
      (shiftOf seq = some s → encrypt P pw bits seq N = JsResult.ok []) := by
  constructor
  · simp only [decrypt]
    rw [if_neg hbits]
  · intro hs
    simp only [encrypt, hs]
    rw [if_neg hbits]

/-- C8 witness: at key size 100, `decrypt` returns empty even for the divergent
sequence 2^63, and `encrypt` returns empty for the default sequence. -/
theorem invalid_bits_empty_result_witness :
    ¬((100 : Nat) = 128 ∨ (100 : Nat) = 192 ∨ (100 : Nat) = 256) ∧
      decrypt [1] [2] 100 (some (2 ^ 63)) = JsResult.ok [] ∧
      encrypt [3] [2] 100 none (some 0) = JsResult.ok [] :=
  ⟨by decide,
    (invalid_bits_empty_result [3] [1] [2] 100 (some (2 ^ 63)) (some 0) 8 (by decide)).1,
    (invalid_bits_empty_result [3] [1] [2] 100 none (some 0) 8 (by decide)).2 (by decide)⟩

/-- C9: the ciphertext depends on a supplied sequence only through its derived
bit-length, i.e. the shift amount: two supplied sequences with the same
derived shift (such as 5 and 7, both of bit-length 3) give bytewise-identical
ciphertexts, and decryption succeeds with any sequence of the same derived
shift as the one used at encrypt time, not only the identical value. -/
theorem ciphertext_depends_only_on_shift (P pw : List Nat) (bits : Nat) (N : Option Nat)
    (s1 s2 sh : Nat)
    (hb : bits = 128 ∨ bits = 192 ∨ bits = 256) (hP : ∀ x ∈ P, x < 256)
    (h1 : shiftOf (some s1) = some sh) (h2 : shiftOf (some s2) = some sh) :
    encrypt P pw bits (some s1) N = encrypt P pw bits (some s2) N ∧
      roundTrip P pw bits (some s1) (some s2) N = JsResult.ok P := by
  constructor
  · simp only [encrypt, h1, h2]
  · exact decrypt_encrypt_ok P pw bits (some s1) (some s2) N sh hb hP h1 h2

/-- C9 witness: sequences 5 and 7 (both derived shift 3) give the same
ciphertext, and decrypting with 7 what was encrypted with 5 recovers the
plaintext. -/
theorem ciphertext_depends_only_on_shift_witness :
    ((128 = 128 ∨ 128 = 192 ∨ 128 = 256) ∧ (∀ x ∈ [10], x < 256) ∧
      shiftOf (some 5) = some 3 ∧ shiftOf (some 7) = some 3) ∧
      (encrypt [10] [3] 128 (some 5) (some 0) = encrypt [10] [3] 128 (some 7) (some 0) ∧
        roundTrip [10] [3] 128 (some 5) (some 7) (some 0) = JsResult.ok [10]) :=
  ⟨⟨by decide, by decide, by decide, by decide⟩,
    ciphertext_depends_only_on_shift [10] [3] 128 (some 0) 5 7 3
      (by decide) (by decide) (by decide) (by decide)⟩

/-- C10: for a valid key size (and a sequence whose shift derivation
terminates), `decrypt` on a ciphertext shorter than 8 bytes throws
(`new Uint8Array(negative)` raises a `RangeError`) instead of returning, and
on a ciphertext of exactly 8 bytes returns the empty byte sequence. -/
theorem decrypt_short_ciphertext (C pw : List Nat) (bits : Nat) (seq : Option Nat) (s : Nat)
    (hb : bits = 128 ∨ bits = 192 ∨ bits = 256) (hs : shiftOf seq = some s) :
    (C.length < 8 → decrypt C pw bits seq = JsResult.err) ∧
      (C.length = 8 → decrypt C pw bits seq = JsResult.ok []) := by
  constructor
  · intro hC
    simp only [decrypt, hs]
    rw [if_pos hb, if_pos (by rw [List.length_map]; omega)]
  · intro hC
    rw [decrypt_ok C pw bits seq s hb hs (by omega)]
    congr 1
    rw [decryptBlocks_eq _ _ _ _ ?hlen]
    case hlen =>
      simp only [List.length_append, List.length_take, List.length_map, List.length_replicate]
      omega
    rw [show (C.map byte).length - 8 = 0 from by rw [List.length_map]; omega]
    rfl

/-- C10 witness: the boundary behaviour applied at a 3-byte ciphertext. -/
theorem decrypt_short_ciphertext_witness :
    ((128 = 128 ∨ 128 = 192 ∨ 128 = 256) ∧ shiftOf none = some 8) ∧
      ((([1, 2, 3] : List Nat).length < 8 → decrypt [1, 2, 3] [7] 128 none = JsResult.err) ∧
        (([1, 2, 3] : List Nat).length = 8 → decrypt [1, 2, 3] [7] 128 none = JsResult.ok [])) :=
  ⟨⟨by decide, by decide⟩,
    decrypt_short_ciphertext [1, 2, 3] [7] 128 none 8 (by decide) (by decide)⟩

end AesCtrP
